import Mathlib

/-!
Shallow embedding of `packages/electron-builder-util/src/fs.ts` and proofs of the
specification claims about it.

Modelling conventions:
- the filesystem subtree rooted at the walked directory is an inductive tree
  `FSNode`; `lstat` of a path yields the node stored there (never following
  symlinks), `readdir` yields the stored child list, `readlink` yields the
  stored literal target text of a symlink node;
- paths are plain strings built exactly as the source builds them,
  `dirPath + path.sep + name` with separator "/";
- machine integers (mode bits) are `Nat`;
- the fallible filesystem primitives `link`, the `fcopy` content copy and
  `writeFile` are driven by an explicit environment `Env` that says, per call,
  whether the primitive succeeds or fails with which error code (`e.code`);
- asynchronous code is modelled sequentially (single-threaded event loop);
  rejected promises become `Except.error`;
- `JavaScript` array sort on names is lexicographic code-point order, realised
  by insertion sort over the underlying character lists.
-/

/-- A node of the source filesystem tree: a plain file with its mode bits, a
symbolic link with its literal target text, or a directory with its named
children. -/
inductive FSNode : Type where
  | file (mode : Nat)
  | symlink (target : String)
  | dir (children : List (String × FSNode))

/-- Stats.isFile() of the lstat result. -/
def FSNode.isFile : FSNode → Bool
  | .file _ => true
  | _ => false

/-- Stats.isSymbolicLink() of the lstat result. -/
def FSNode.isSymbolicLink : FSNode → Bool
  | .symlink _ => true
  | _ => false

/-- Stats.isDirectory() of the lstat result. -/
def FSNode.isDirectory : FSNode → Bool
  | .dir _ => true
  | _ => false

/-- Stats.mode of the lstat result (only meaningful for plain files, which is
the only case in which the source reads it). -/
def FSNode.mode : FSNode → Nat
  | .file m => m
  | _ => 0

/-- readdir of a directory node: its stored child list. A non-directory has no
children (the source never pops a non-directory from the walk queue). -/
def FSNode.childrenOf : FSNode → List (String × FSNode)
  | .dir cs => cs
  | _ => []

/-- readlink of a symlink node: its stored literal (unresolved) target text. -/
def FSNode.readlink : FSNode → String
  | .symlink t => t
  | _ => ""

mutual
/-- Number of nodes of a tree, used as traversal fuel: the walk loop pops one
queue entry per iteration and every queue entry is a distinct node of the
tree, so `size` bounds the number of iterations. -/
def FSNode.size : FSNode → Nat
  | .file _ => 1
  | .symlink _ => 1
  | .dir cs => 1 + FSNode.sizeChildren cs

/-- Total number of nodes of a child list. -/
def FSNode.sizeChildren : List (String × FSNode) → Nat
  | [] => 0
  | (_, c) :: rest => FSNode.size c + FSNode.sizeChildren rest
end

/-- Ordering used by the source's `childNames.sort()` and `dirs.sort()`:
lexicographic code-point comparison of the names (first components). -/
def nameLe (a b : String × FSNode) : Prop := a.1.data ≤ b.1.data

instance : DecidableRel nameLe := fun a b => by unfold nameLe; infer_instance

instance : IsTrans (String × FSNode) nameLe := ⟨fun _ _ _ h1 h2 => le_trans h1 h2⟩

instance : IsTotal (String × FSNode) nameLe := ⟨fun a b => le_total a.1.data b.1.data⟩

/-- JavaScript `array.sort()` over named entries, ascending by name. -/
def sortByName (l : List (String × FSNode)) : List (String × FSNode) :=
  List.insertionSort nameLe l

/-- Permission fixing performed inline by `copyOrLinkFile` through the
`stat-mode` wrapper (fs.ts lines 126-134): if the owner execute bit (0o100,
bit 6) is set, set the group execute bit (0o010, bit 3) and the others execute
bit (0o001, bit 0); then always set the group read bit (0o040, bit 5) and the
others read bit (0o004, bit 2). -/
def normalizeMode (mode : Nat) : Nat :=
  let m := if mode.testBit 6 then (mode ||| 0o010) ||| 0o001 else mode
  (m ||| 0o040) ||| 0o004

/-- Module-level default `_isUseHardLink` (fs.ts line 112):
`process.platform != "win32" && process.env.USE_HARD_LINKS !== "false" &&
(isCi || process.env.USE_HARD_LINKS === "true")`, parameterised by the ambient
platform string, the optional `USE_HARD_LINKS` environment variable and the CI
detection signal. -/
def isUseHardLinkDefault (platform : String) (envUseHardLinks : Option String)
    (isCi : Bool) : Bool :=
  (platform != "win32") && (envUseHardLinks != some "false")
    && (isCi || envUseHardLinks == some "true")

/-- External-effect environment: per call, whether `link`, the `fcopy` content
copy and `writeFile` succeed (`none`) or reject with an error whose `code`
field is the given string. -/
structure Env where
  linkErr : String → String → Option String
  copyErr : String → String → Option String
  writeErr : String → String → Option String

/-- One observable filesystem side effect of the replication layer. -/
inductive FsEffect : Type where
  | link (src dest : String)
  | copy (src dest : String) (mode : Option Nat)
  | write (dest : String) (data : String)
  | ensureDir (dir : String)
  | symlinkEff (target file : String)
deriving DecidableEq

/-- Predicate singling out symlink-creation effects. -/
def FsEffect.isSymlinkEff : FsEffect → Bool
  | .symlinkEff _ _ => true
  | _ => false

/-- The stat record handed to `copyOrLinkFile`: the walk passes the lstat
result, whose only fields read here are `mode` and (in `FileCopier.copy`)
`isFile()`. We reuse the tree node as the stat value. -/
def copyOrLinkFile (env : Env) (src dest : String) (stats : Option FSNode)
    (isUseHardLink : Bool) : Except String FsEffect :=
  let isUseHardLink :=
    match stats with
    | some s => if normalizeMode s.mode ≠ s.mode && isUseHardLink then false else isUseHardLink
    | none => isUseHardLink
  if isUseHardLink then
    match env.linkErr src dest with
    | none => .ok (.link src dest)
    | some e => .error e
  else
    match env.copyErr src dest with
    | none => .ok (.copy src dest (stats.map (fun s => normalizeMode s.mode)))
    | some e => .error e

/-- path.dirname, modelled as dropping the last "/"-separated component; a
path without separator has parent ".". -/
def dirname (p : String) : String :=
  match p.data.reverse.dropWhile (fun c => c != '/') with
  | [] => "."
  | _ :: rest => String.mk rest.reverse

/-- copyFile (fs.ts lines 114-116): optionally ensure the destination parent
directory, then `copyOrLinkFile(src, dest, null, false)`. -/
def copyFile (env : Env) (src dest : String) (isEnsureDir : Bool) :
    Except String (List FsEffect) :=
  let pre := if isEnsureDir then [FsEffect.ensureDir (dirname dest)] else []
  match copyOrLinkFile env src dest none false with
  | .ok eff => .ok (pre ++ [eff])
  | .error e => .error e

/-- Replicator instance state and configuration (fs.ts class FileCopier). -/
structure FileCopier where
  isUseHardLinkFunction : Option (String → Bool)
  transformer : Option (String → Option String)
  isUseHardLink : Bool

/-- FileCopier constructor (fs.ts lines 164-166): the instance flag starts as
the module default and is cleared when the caller passed the sentinel
`DO_NOT_USE_HARD_LINKS` function (reference comparison in the source,
modelled by the explicit flag `funcIsDoNotUseHardLinks`). -/
def FileCopier.make (hardLinkDefault : Bool) (funcIsDoNotUseHardLinks : Bool)
    (f : Option (String → Bool)) (t : Option (String → Option String)) : FileCopier :=
  ⟨f, t, hardLinkDefault && !funcIsDoNotUseHardLinks⟩

/-- Hard-link flag actually passed to `copyOrLinkFile` by `FileCopier.copy`
(fs.ts line 183): `(!this.isUseHardLink || this.isUseHardLinkFunction == null)
? this.isUseHardLink : this.isUseHardLinkFunction(dest)`. -/
def fcEffectiveHardLink (fc : FileCopier) (dest : String) : Bool :=
  if !fc.isUseHardLink || fc.isUseHardLinkFunction.isNone then fc.isUseHardLink
  else
    match fc.isUseHardLinkFunction with
    | some f => f dest
    | none => fc.isUseHardLink

/-- Body of the `try` block of `FileCopier.copy` (fs.ts lines 170-183): if a
transformer is configured and the stat is a plain file, consult it; a non-null
result is written directly to the destination, a null result falls through to
`copyOrLinkFile`. -/
def fcTryBody (env : Env) (fc : FileCopier) (src dest : String)
    (stat : Option FSNode) : Except String FsEffect :=
  let normal := copyOrLinkFile env src dest stat (fcEffectiveHardLink fc dest)
  match fc.transformer, stat with
  | some t, some s =>
    if s.isFile then
      match t src with
      | some data =>
        match env.writeErr dest data with
        | none => .ok (.write dest data)
        | some e => .error e
      | none => normal
    else normal
  | _, _ => normal

/-- FileCopier.copy (fs.ts lines 168-200): run the try body; on an error whose
code is "EXDEV", clear the instance hard-link flag (if still set) and fall
back to a plain content copy of this file; propagate any other error. Returns
the performed effect together with the updated instance state. -/
def FileCopier.copy (env : Env) (fc : FileCopier) (src dest : String)
    (stat : Option FSNode) : Except String (FsEffect × FileCopier) :=
  match fcTryBody env fc src dest stat with
  | .ok eff => .ok (eff, fc)
  | .error e =>
    if e = "EXDEV" then
      let fc := if fc.isUseHardLink then { fc with isUseHardLink := false } else fc
      match copyOrLinkFile env src dest stat false with
      | .ok eff => .ok (eff, fc)
      | .error e2 => .error e2
    else .error e

/-- Walk parameters: the optional filter predicate and the optional consumer.
The consumer threads an explicit state `σ` (standing for whatever it mutates
in the source), receives the file path, the lstat result, the parent
directory, the current ignore set and the sorted sibling name list, and
returns the new state, an optional replacement stat (the awaited consumer
result when it carries `isDirectory`) and the paths it added to the ignore
set; a thrown error rejects the walk. -/
structure WalkCtx (σ : Type) where
  filter : Option (String → FSNode → Bool)
  consumer : Option (σ → String → FSNode → String → List String → List String →
    Except String (σ × Option FSNode × List String))

/-- Check of fs.ts line 67: the child is skipped when its path is in
`extraIgnoredFiles` or the filter rejects it. -/
def rejectedAtInspection (ctx : WalkCtx σ) (ignored : List String)
    (filePath : String) (stat : FSNode) : Bool :=
  ignored.contains filePath ||
    (match ctx.filter with
     | some f => !f filePath stat
     | none => false)

/-- Per-child handler (the mapper lambda of fs.ts lines 63-94). Returns the
consumer state, the emitted file path if the child is classified as a
non-directory, the entry pushed onto `dirs` if it is classified as a
directory, and the updated ignore set. A skipped child contributes nothing
and the consumer is not invoked for it. -/
def inspectChild (ctx : WalkCtx σ) (s : σ) (dirPath name : String)
    (child : FSNode) (ignored : List String) (childNames : List String) :
    Except String (σ × Option String × Option (String × FSNode) × List String) :=
  let filePath := dirPath ++ "/" ++ name
  if rejectedAtInspection ctx ignored filePath child then
    .ok (s, none, none, ignored)
  else
    match ctx.consumer with
    | none =>
      if child.isDirectory then .ok (s, none, some (name, child), ignored)
      else .ok (s, some filePath, none, ignored)
    | some c =>
      match c s filePath child dirPath ignored childNames with
      | .error e => .error e
      | .ok (s2, override, adds) =>
        let ignored2 := ignored ++ adds
        if (override.getD child).isDirectory then
          .ok (s2, none, some (name, child), ignored2)
        else
          .ok (s2, some filePath, none, ignored2)

/-- One directory level (fs.ts lines 58-101): inspect the sorted children in
order, collecting the emitted file paths (in that sorted order, as the source
appends them after the map) and the entries pushed onto `dirs`. -/
def processChildren (ctx : WalkCtx σ) (s : σ) (dirPath : String)
    (children : List (String × FSNode)) (childNames : List String)
    (ignored : List String) :
    Except String (σ × List String × List (String × FSNode) × List String) :=
  match children with
  | [] => .ok (s, [], [], ignored)
  | (name, child) :: rest =>
    match inspectChild ctx s dirPath name child ignored childNames with
    | .error e => .error e
    | .ok (s2, emit, dirEntry, ignored2) =>
      match processChildren ctx s2 dirPath rest childNames ignored2 with
      | .error e => .error e
      | .ok (s3, files, dirs, ignored3) =>
        .ok (s3,
          (match emit with | some p => p :: files | none => files),
          (match dirEntry with | some d => d :: dirs | none => dirs),
          ignored3)

/-- The iterative walk loop (fs.ts lines 49-107). The source queue is a
JavaScript array used as a stack via push/pop at the end; here the head of
the list is the top of the stack, so pushing the ascending `dirs` one by one
prepends them reversed. `addDirToResult` is false only for the very first
pop (the root), every later popped directory path is appended to the result
first. The fuel argument only ensures termination; `walk` passes enough fuel
that it never runs out (`walkLoop_fuel_irrelevant`). -/
def walkLoop (ctx : WalkCtx σ) :
    Nat → List (String × FSNode) → Bool → List String → σ → List String →
    Except String (List String × σ)
  | 0, _, _, _, s, result => .ok (result, s)
  | _ + 1, [], _, _, s, result => .ok (result, s)
  | fuel + 1, (dirPath, node) :: rest, addDirToResult, ignored, s, result =>
    let result2 := if addDirToResult then result ++ [dirPath] else result
    let sortedChildren := sortByName node.childrenOf
    let childNames := sortedChildren.map (fun nc => nc.1)
    match processChildren ctx s dirPath sortedChildren childNames ignored with
    | .error e => .error e
    | .ok (s2, files, dirs, ignored2) =>
      let dirsSorted := sortByName dirs
      walkLoop ctx fuel
        ((dirsSorted.reverse.map (fun nc => (dirPath ++ "/" ++ nc.1, nc.2))) ++ rest)
        true ignored2 s2 (result2 ++ files)

/-- walk (fs.ts lines 44-110): run the loop from a queue holding only the
root, with `addDirToResult` false, an empty ignore set and an empty result. -/
def walk (initialDirPath : String) (root : FSNode) (ctx : WalkCtx σ) (s : σ) :
    Except String (List String × σ) :=
  walkLoop ctx (root.size + 1) [(initialDirPath, root)] false [] s []

/-- Walk with a filter but no consumer (as `copyDir` would use it without its
side effects); it cannot fail, so the result list is extracted directly. -/
def walkPaths (initialDirPath : String) (root : FSNode)
    (filter : Option (String → FSNode → Bool)) : List String :=
  match walk initialDirPath root ⟨filter, none⟩ () with
  | .ok (r, _) => r
  | .error _ => []

/-- Total size of the nodes still queued; the loop strictly decreases it. -/
def queueWeight (q : List (String × FSNode)) : Nat :=
  (q.map (fun pn => pn.2.size)).sum

/-- Filter verdict on one child of a directory, for a consumer-free walk
(the ignore set stays empty there): true when the child is kept. -/
def keepChild (filter : Option (String → FSNode → Bool)) (dirPath : String)
    (nc : String × FSNode) : Bool :=
  match filter with
  | some f => f (dirPath ++ "/" ++ nc.1) nc.2
  | none => true

/-- Children of a directory that survive the filter, in sorted name order. -/
def keptChildren (filter : Option (String → FSNode → Bool)) (dirPath : String)
    (n : FSNode) : List (String × FSNode) :=
  (sortByName n.childrenOf).filter (keepChild filter dirPath)

/-- Paths of the kept non-directory children, in sorted name order: exactly
what one loop iteration appends to the result after the directory path. -/
def emittedFilePaths (filter : Option (String → FSNode → Bool)) (dirPath : String)
    (n : FSNode) : List String :=
  ((keptChildren filter dirPath n).filter (fun nc => !nc.2.isDirectory)).map
    (fun nc => dirPath ++ "/" ++ nc.1)

/-- Kept directory children in sorted name order: what one loop iteration
pushes onto the stack (so they are popped in reverse, descending order). -/
def keptSubdirs (filter : Option (String → FSNode → Bool)) (dirPath : String)
    (n : FSNode) : List (String × FSNode) :=
  sortByName ((keptChildren filter dirPath n).filter (fun nc => nc.2.isDirectory))

/-- Reference recursion for the consumer-free walk: the contents contributed
below a popped directory (excluding its own path): first its kept
non-directory children in ascending name order, then, for each kept
subdirectory in descending name order, the subdirectory path followed by its
own contribution. The fuel only ensures termination; `subtreeListF_fuel`
shows any fuel of at least `n.size` gives the same value. -/
def subtreeListF (filter : Option (String → FSNode → Bool)) :
    Nat → String → FSNode → List String
  | 0, _, _ => []
  | fuel + 1, dirPath, n =>
    emittedFilePaths filter dirPath n
      ++ (keptSubdirs filter dirPath n).reverse.flatMap
          (fun nc => (dirPath ++ "/" ++ nc.1)
            :: subtreeListF filter fuel (dirPath ++ "/" ++ nc.1) nc.2)

/-- Reference recursion at its canonical fuel. -/
def subtreeList (filter : Option (String → FSNode → Bool)) (dirPath : String)
    (n : FSNode) : List String :=
  subtreeListF filter n.size dirPath n

/-- Provenance of a walk output path for a consumer-free walk: every emitted
path reaches its position through children that passed the ignore/filter
check; a skipped child is never emitted and never descended into, so its
subtree contributes nothing. -/
inductive EmittedFrom (filter : Option (String → FSNode → Bool)) :
    String → FSNode → String → Prop where
  | fileKept (dirPath : String) (n : FSNode) (name : String) (c : FSNode) :
      (name, c) ∈ n.childrenOf → keepChild filter dirPath (name, c) = true →
      c.isDirectory = false →
      EmittedFrom filter dirPath n (dirPath ++ "/" ++ name)
  | dirKept (dirPath : String) (n : FSNode) (name : String) (c : FSNode) :
      (name, c) ∈ n.childrenOf → keepChild filter dirPath (name, c) = true →
      c.isDirectory = true →
      EmittedFrom filter dirPath n (dirPath ++ "/" ++ name)
  | descend (dirPath : String) (n : FSNode) (name : String) (c : FSNode) (p : String) :
      (name, c) ∈ n.childrenOf → keepChild filter dirPath (name, c) = true →
      c.isDirectory = true →
      EmittedFrom filter (dirPath ++ "/" ++ name) c p →
      EmittedFrom filter dirPath n p

/-- JavaScript `String.prototype.replace` with a plain-string pattern:
replace the first occurrence only. -/
def listReplaceFirst : List Char → List Char → List Char → List Char
  | [], _, _ => []
  | c :: rest, pat, rep =>
    if pat.isPrefixOf (c :: rest) then rep ++ (c :: rest).drop pat.length
    else c :: listReplaceFirst rest pat rep

/-- String.replace of the source (`file.replace(src, destination)`). -/
def strReplaceFirst (s pattern replacement : String) : String :=
  String.mk (listReplaceFirst s.data pattern.data replacement.data)

/-- Pending symlink record (fs.ts interface Link): the literal target text
read from the source link, and the destination path to create. -/
structure Link where
  link : String
  file : String
deriving DecidableEq

/-- State threaded through copyDir's walk consumer: the replicator instance,
the memo of already-created destination parents, the deferred symlink
records, and the filesystem effects performed so far. -/
structure CopyDirState where
  fileCopier : FileCopier
  createdSourceDirs : List String
  links : List Link
  effects : List FsEffect

/-- The copyDir walk consumer (fs.ts lines 216-233): skip entries that are
neither regular files nor symlinks; ensure the destination parent once per
source directory; copy regular files through the FileCopier; for symlinks,
read the literal target and record a deferred Link without creating
anything. -/
def copyDirConsumer (env : Env) (src destination : String) :
    CopyDirState → String → FSNode → String → List String → List String →
    Except String (CopyDirState × Option FSNode × List String) :=
  fun st file stat parent _ _ =>
    if !stat.isFile && !stat.isSymbolicLink then .ok (st, none, [])
    else
      let st :=
        if st.createdSourceDirs.contains parent then st
        else { st with
          createdSourceDirs := st.createdSourceDirs ++ [parent],
          effects := st.effects ++ [.ensureDir (strReplaceFirst parent src destination)] }
      let destFile := strReplaceFirst file src destination
      if stat.isFile then
        match FileCopier.copy env st.fileCopier file destFile (some stat) with
        | .error e => .error e
        | .ok (eff, fc2) =>
          .ok ({ st with fileCopier := fc2, effects := st.effects ++ [eff] }, none, [])
      else
        .ok ({ st with links := st.links ++ [⟨stat.readlink, destFile⟩] }, none, [])

/-- copyDir (fs.ts lines 207-235): build a FileCopier, walk the source tree
with the consumer above, and only after the walk has completed create every
recorded symlink (`symlink(it.link, it.file)`). The returned list is the
ordered trace of filesystem effects. -/
def copyDir (env : Env) (src destination : String) (tree : FSNode)
    (filter : Option (String → FSNode → Bool))
    (transformer : Option (String → Option String))
    (isUseHardLinkF : Option (String → Bool))
    (hardLinkDefault funcIsDoNotUseHardLinks : Bool) :
    Except String (List FsEffect) :=
  let fileCopier :=
    FileCopier.make hardLinkDefault funcIsDoNotUseHardLinks isUseHardLinkF transformer
  match walk src tree ⟨filter, some (copyDirConsumer env src destination)⟩
      ⟨fileCopier, [], [], []⟩ with
  | .error e => .error e
  | .ok (_, st) =>
    .ok (st.effects ++ st.links.map (fun l => .symlinkEff l.link l.file))

/-- A node of the walked tree: the root itself or a descendant reached
through `childrenOf` links. The walk only ever hands such nodes to its
consumer. -/
inductive NodeIn : FSNode → FSNode → Prop where
  | refl (n : FSNode) : NodeIn n n
  | step {root parent c : FSNode} (name : String) :
      NodeIn root parent → (name, c) ∈ parent.childrenOf → NodeIn root c

/-- Invariant maintained by copyDir's consumer: the effects performed during
the walk contain no symlink creation, and every recorded Link's target text
is the literal readlink of an actual symlink node of the walked tree. -/
def CopyDirInv (tree : FSNode) (st : CopyDirState) : Prop :=
  (∀ e ∈ st.effects, e.isSymlinkEff = false)
    ∧ (∀ l ∈ st.links, ∃ n : FSNode,
        NodeIn tree n ∧ n.isSymbolicLink = true ∧ l.link = n.readlink)

section PermissionLemmas

theorem testBit_one (i : Nat) : Nat.testBit 1 i = decide (0 = i) := by
  have h : (1 : Nat) = 2 ^ 0 := by norm_num
  rw [h, Nat.testBit_two_pow]

theorem testBit_four (i : Nat) : Nat.testBit 4 i = decide (2 = i) := by
  have h : (4 : Nat) = 2 ^ 2 := by norm_num
  rw [h, Nat.testBit_two_pow]

theorem testBit_eight (i : Nat) : Nat.testBit 8 i = decide (3 = i) := by
  have h : (8 : Nat) = 2 ^ 3 := by norm_num
  rw [h, Nat.testBit_two_pow]

theorem testBit_thirtytwo (i : Nat) : Nat.testBit 32 i = decide (5 = i) := by
  have h : (32 : Nat) = 2 ^ 5 := by norm_num
  rw [h, Nat.testBit_two_pow]

theorem normalizeMode_testBit_of_ne (mode i : Nat) (h0 : i ≠ 0) (h2 : i ≠ 2)
    (h3 : i ≠ 3) (h5 : i ≠ 5) :
    (normalizeMode mode).testBit i = mode.testBit i := by
  unfold normalizeMode
  have e0 : ¬ (0 = i) := fun h => h0 h.symm
  have e2 : ¬ (2 = i) := fun h => h2 h.symm
  have e3 : ¬ (3 = i) := fun h => h3 h.symm
  have e5 : ¬ (5 = i) := fun h => h5 h.symm
  by_cases h : mode.testBit 6 <;>
    simp [h, Nat.testBit_or, testBit_one, testBit_four, testBit_eight,
      testBit_thirtytwo, e0, e2, e3, e5]

theorem normalizeMode_testBit5 (mode : Nat) : (normalizeMode mode).testBit 5 = true := by
  unfold normalizeMode
  by_cases h : mode.testBit 6 <;>
    simp [h, Nat.testBit_or, testBit_thirtytwo]

theorem normalizeMode_testBit2 (mode : Nat) : (normalizeMode mode).testBit 2 = true := by
  unfold normalizeMode
  by_cases h : mode.testBit 6 <;>
    simp [h, Nat.testBit_or, testBit_four]

theorem normalizeMode_testBit3 (mode : Nat) :
    (normalizeMode mode).testBit 3 = (mode.testBit 6 || mode.testBit 3) := by
  unfold normalizeMode
  by_cases h : mode.testBit 6 <;>
    simp [h, Nat.testBit_or, testBit_one, testBit_four, testBit_eight, testBit_thirtytwo]

theorem normalizeMode_testBit0 (mode : Nat) :
    (normalizeMode mode).testBit 0 = (mode.testBit 6 || mode.testBit 0) := by
  unfold normalizeMode
  by_cases h : mode.testBit 6 <;>
    simp [h, Nat.testBit_or, testBit_one, testBit_four, testBit_eight, testBit_thirtytwo]

theorem normalizeMode_testBit6 (mode : Nat) :
    (normalizeMode mode).testBit 6 = mode.testBit 6 :=
  normalizeMode_testBit_of_ne mode 6 (by omega) (by omega) (by omega) (by omega)

theorem normalizeMode_idem (mode : Nat) :
    normalizeMode (normalizeMode mode) = normalizeMode mode := by
  apply Nat.eq_of_testBit_eq
  intro i
  by_cases h0 : i = 0
  · subst h0
    rw [normalizeMode_testBit0, normalizeMode_testBit0, normalizeMode_testBit6]
    cases mode.testBit 6 <;> simp
  by_cases h2 : i = 2
  · subst h2
    rw [normalizeMode_testBit2, normalizeMode_testBit2]
  by_cases h3 : i = 3
  · subst h3
    rw [normalizeMode_testBit3, normalizeMode_testBit3, normalizeMode_testBit6]
    cases mode.testBit 6 <;> simp
  by_cases h5 : i = 5
  · subst h5
    rw [normalizeMode_testBit5, normalizeMode_testBit5]
  rw [normalizeMode_testBit_of_ne _ i h0 h2 h3 h5,
    normalizeMode_testBit_of_ne _ i h0 h2 h3 h5]

end PermissionLemmas

/-- C4: for every mode value, `copyOrLinkFile`'s permission normalization sets
group and others execute whenever owner execute is set, sets group and others
read unconditionally, leaves every bit other than 0, 2, 3, 5 unchanged, leaves
the execute bits 0 and 3 unchanged when owner execute is clear, and maps
0o755 to 0o755, 0o700 to 0o755 and 0o644 to 0o644. -/
theorem claim_c4_permission_normalization (mode : Nat) :
    (mode.testBit 6 = true →
        (normalizeMode mode).testBit 3 = true ∧ (normalizeMode mode).testBit 0 = true)
    ∧ (normalizeMode mode).testBit 5 = true
    ∧ (normalizeMode mode).testBit 2 = true
    ∧ (∀ i, i ≠ 0 → i ≠ 2 → i ≠ 3 → i ≠ 5 →
        (normalizeMode mode).testBit i = mode.testBit i)
    ∧ (mode.testBit 6 = false →
        (normalizeMode mode).testBit 0 = mode.testBit 0
          ∧ (normalizeMode mode).testBit 3 = mode.testBit 3)
    ∧ normalizeMode 0o755 = 0o755 ∧ normalizeMode 0o700 = 0o755
    ∧ normalizeMode 0o644 = 0o644 := by
  refine ⟨?_, normalizeMode_testBit5 mode, normalizeMode_testBit2 mode,
    normalizeMode_testBit_of_ne mode, ?_, by decide, by decide, by decide⟩
  · intro h
    rw [normalizeMode_testBit3, normalizeMode_testBit0, h]
    simp
  · intro h
    rw [normalizeMode_testBit3, normalizeMode_testBit0, h]
    simp

/-- C4 witness: the normalization facts instantiated at mode 0o700. -/
theorem claim_c4_permission_normalization_witness :
    (Nat.testBit 0o700 6 = true)
    ∧ (normalizeMode 0o700).testBit 3 = true ∧ (normalizeMode 0o700).testBit 0 = true :=
  ⟨by decide, (claim_c4_permission_normalization 0o700).1 (by decide)⟩

/-- C7 counterexample: the claim says that with the override environment toggle
set to on the default is true even on the excluded platform family (win32);
the code computes false there because the platform conjunct short-circuits the
whole expression. -/
theorem claim_c7_counterexample :
    isUseHardLinkDefault "win32" (some "true") true = false := by rfl

/-- C7 amended: the explicit override forces the default off everywhere and
forces it on only on non-win32 platforms; on win32 the default is always
false regardless of the override and of CI detection; absent an override the
default is true exactly when CI is detected and the platform is not win32. -/
theorem claim_c7_hard_link_default (platform : String) (envOverride : Option String)
    (isCi : Bool) :
    (platform ≠ "win32" → isUseHardLinkDefault platform (some "true") isCi = true)
    ∧ isUseHardLinkDefault "win32" envOverride isCi = false
    ∧ isUseHardLinkDefault platform (some "false") isCi = false
    ∧ isUseHardLinkDefault platform none isCi = ((platform != "win32") && isCi) := by
  refine ⟨?_, ?_, ?_, ?_⟩
  · intro h
    simp [isUseHardLinkDefault, h]
  · simp [isUseHardLinkDefault]
  · simp [isUseHardLinkDefault]
  · have h : ((none : Option String) != some "false") = true := by rfl
    cases hp : (platform != "win32") <;> simp [isUseHardLinkDefault, hp, h]

/-- C7 witness: the amended facts instantiated on a non-win32 platform with CI
off and the override on. -/
theorem claim_c7_hard_link_default_witness :
    isUseHardLinkDefault "linux" (some "true") false = true :=
  (claim_c7_hard_link_default "linux" none false).1 (by decide)

/-- C10: the standalone `copyFile` never attempts a hard link and never
normalizes permission bits: it always performs a plain content copy with a
null status (so the copy carries no mode argument), after ensuring the
destination parent directory when `isEnsureDir` is set (its default in the
source); an error of the underlying copy propagates. -/
theorem claim_c10_copyFile (env : Env) (src dest : String) :
    (env.copyErr src dest = none →
        copyFile env src dest true
          = .ok [.ensureDir (dirname dest), .copy src dest none]
        ∧ copyFile env src dest false = .ok [.copy src dest none])
    ∧ (∀ e, env.copyErr src dest = some e →
        copyFile env src dest true = .error e) := by
  constructor
  · intro h
    constructor <;> simp [copyFile, copyOrLinkFile, h]
  · intro e h
    simp [copyFile, copyOrLinkFile, h]

/-- C10 witness: `copyFile` on a concrete always-succeeding environment. -/
theorem claim_c10_copyFile_witness :
    copyFile ⟨fun _ _ => none, fun _ _ => none, fun _ _ => none⟩ "src/a" "dest/sub/a" true
      = .ok [.ensureDir "dest/sub", .copy "src/a" "dest/sub/a" none] :=
  ((claim_c10_copyFile ⟨fun _ _ => none, fun _ _ => none, fun _ _ => none⟩
    "src/a" "dest/sub/a").1 rfl).1

/-- C8: when a supplied status has mode bits changed by normalization,
`copyOrLinkFile` performs a content copy carrying the normalized mode even
though its hard-link argument is true; the demotion is local to the call: a
successful try body leaves the `FileCopier` instance state untouched, and a
later `copyOrLinkFile` call whose status mode is unchanged by normalization
still hard-links. -/
theorem claim_c8_per_call_demotion (env : Env) (src dest : String) (s : FSNode)
    (hchanged : normalizeMode s.mode ≠ s.mode)
    (hcopy : env.copyErr src dest = none) :
    copyOrLinkFile env src dest (some s) true
      = .ok (.copy src dest (some (normalizeMode s.mode)))
    ∧ (∀ fc : FileCopier, ∀ eff stat2,
        fcTryBody env fc src dest stat2 = .ok eff →
          FileCopier.copy env fc src dest stat2 = .ok (eff, fc))
    ∧ (∀ src2 dest2 : String, ∀ s2 : FSNode,
        normalizeMode s2.mode = s2.mode → env.linkErr src2 dest2 = none →
          copyOrLinkFile env src2 dest2 (some s2) true = .ok (.link src2 dest2)) := by
  refine ⟨?_, ?_, ?_⟩
  · simp [copyOrLinkFile, hchanged, hcopy]
  · intro fc eff stat2 h
    simp [FileCopier.copy, h]
  · intro src2 dest2 s2 h2 hlink
    simp [copyOrLinkFile, h2, hlink]

/-- C8 witness: instantiated with mode 0o700 (normalization changes it to
0o755, so the call copies with the normalized mode) and a second status with
mode 0o755 (unchanged, so the hard link happens). -/
theorem claim_c8_per_call_demotion_witness :
    copyOrLinkFile ⟨fun _ _ => none, fun _ _ => none, fun _ _ => none⟩
        "s" "d" (some (.file 0o700)) true
      = .ok (.copy "s" "d" (some (normalizeMode 0o700)))
    ∧ copyOrLinkFile ⟨fun _ _ => none, fun _ _ => none, fun _ _ => none⟩
        "s2" "d2" (some (.file 0o755)) true
      = .ok (.link "s2" "d2") := by
  have h := claim_c8_per_call_demotion
    ⟨fun _ _ => none, fun _ _ => none, fun _ _ => none⟩
    "s" "d" (.file 0o700) (by decide) rfl
  exact ⟨h.1, h.2.2 "s2" "d2" (.file 0o755) (by decide) rfl⟩

/-- C3: when the hard-link attempt of `FileCopier.copy` fails with code
"EXDEV", the file is content-copied instead and the instance flag
`isUseHardLink` becomes false; when it fails with any other code the error
propagates unchanged. Hypotheses pin the hard-link path: no transformer, the
effective hard-link flag is true, and a supplied status is not demoted by
permission normalization. -/
theorem claim_c3_exdev_fallback (env : Env) (fc : FileCopier) (src dest : String)
    (stat : Option FSNode)
    (htr : fc.transformer = none)
    (heff : fcEffectiveHardLink fc dest = true)
    (hstat : ∀ s, stat = some s → normalizeMode s.mode = s.mode) :
    (env.linkErr src dest = some "EXDEV" → env.copyErr src dest = none →
        FileCopier.copy env fc src dest stat
          = .ok (.copy src dest (stat.map (fun s => normalizeMode s.mode)),
              { fc with isUseHardLink := false }))
    ∧ (∀ e, env.linkErr src dest = some e → e ≠ "EXDEV" →
        FileCopier.copy env fc src dest stat = .error e) := by
  have hflag : fc.isUseHardLink = true := by
    by_contra h
    rw [Bool.not_eq_true] at h
    simp [fcEffectiveHardLink, h] at heff
  have hbody : ∀ hl, env.linkErr src dest = some hl →
      fcTryBody env fc src dest stat = .error hl := by
    intro hl hlink
    cases stat with
    | none => simp [fcTryBody, htr, copyOrLinkFile, heff, hlink]
    | some s =>
      have hs := hstat s rfl
      simp [fcTryBody, htr, copyOrLinkFile, heff, hs, hlink]
  constructor
  · intro hlink hcopy
    cases stat with
    | none =>
      simp [FileCopier.copy, hbody "EXDEV" hlink, hflag, copyOrLinkFile, hcopy]
    | some s =>
      have hs := hstat s rfl
      simp [FileCopier.copy, hbody "EXDEV" hlink, hflag, copyOrLinkFile, hcopy, hs]
  · intro e hlink hne
    simp [FileCopier.copy, hbody e hlink, hne]

/-- C3 witness: a cross-device environment on a replicator with the hard-link
flag set: the call degrades to a content copy and clears the flag. -/
theorem claim_c3_exdev_fallback_witness :
    FileCopier.copy ⟨fun _ _ => some "EXDEV", fun _ _ => none, fun _ _ => none⟩
        ⟨none, none, true⟩ "s" "d" none
      = .ok (.copy "s" "d" none,
          { (⟨none, none, true⟩ : FileCopier) with isUseHardLink := false }) :=
  (claim_c3_exdev_fallback ⟨fun _ _ => some "EXDEV", fun _ _ => none, fun _ _ => none⟩
    ⟨none, none, true⟩ "s" "d" none rfl rfl (fun s h => by cases h)).1 rfl rfl

/-- C6: with a transformer configured and a plain-file status, a non-null
transformer result is written verbatim to the destination and the whole
copy-or-link path (hard link, content copy, mode normalization) is skipped,
leaving the instance state untouched; a null result makes the call behave
exactly as if no transformer were configured. -/
theorem claim_c6_transformer (env : Env) (fc : FileCopier) (src dest : String)
    (s : FSNode) (t : String → Option String)
    (htr : fc.transformer = some t)
    (hfile : s.isFile = true) :
    (∀ data, t src = some data → env.writeErr dest data = none →
        FileCopier.copy env fc src dest (some s) = .ok (.write dest data, fc))
    ∧ (t src = none →
        FileCopier.copy env fc src dest (some s)
          = Except.map (fun r => (r.1, { r.2 with transformer := some t }))
              (FileCopier.copy env { fc with transformer := none } src dest (some s))) := by
  constructor
  · intro data hdata hwrite
    simp [FileCopier.copy, fcTryBody, htr, hfile, hdata, hwrite]
  · intro hdata
    obtain ⟨f0, tr0, hl0⟩ := fc
    have htr0 : tr0 = some t := htr
    subst htr0
    have hbody : fcTryBody env ⟨f0, some t, hl0⟩ src dest (some s)
        = fcTryBody env ⟨f0, none, hl0⟩ src dest (some s) := by
      simp [fcTryBody, hfile, hdata, fcEffectiveHardLink]
    simp only [FileCopier.copy]
    rw [hbody]
    cases h2 : fcTryBody env ⟨f0, none, hl0⟩ src dest (some s) with
    | ok eff => simp [Except.map]
    | error e =>
      by_cases he : e = "EXDEV"
      · subst he
        simp only [if_pos rfl]
        cases h3 : copyOrLinkFile env src dest (some s) false with
        | ok eff2 => cases hl0 <;> simp [Except.map]
        | error e2 => simp [Except.map]
      · simp [he, Except.map]

/-- C6 witness: a transformer returning concrete content on a concrete
environment writes exactly that content and performs no copy or link. -/
theorem claim_c6_transformer_witness :
    FileCopier.copy ⟨fun _ _ => none, fun _ _ => none, fun _ _ => none⟩
        ⟨none, some (fun _ => some "DATA"), true⟩ "s" "d" (some (.file 0o644))
      = .ok (.write "d" "DATA", ⟨none, some (fun _ => some "DATA"), true⟩) :=
  (claim_c6_transformer ⟨fun _ _ => none, fun _ _ => none, fun _ _ => none⟩
    ⟨none, some (fun _ => some "DATA"), true⟩ "s" "d" (.file 0o644)
    (fun _ => some "DATA") rfl rfl).1 "DATA" rfl rfl

/-- C1 counterexample: on the tree `root/{b/{c.txt}}` with no filter and no
consumer, the walk output is `[root/b, root/b/c.txt]`: the subdirectory path
`root/b` appears in the output list (fs.ts lines 50-56 push every popped
directory except the very first onto the result), contradicting the claim
that the output never contains a directory path. -/
theorem claim_c1_counterexample :
    walkPaths "root" (.dir [("b", .dir [("c.txt", .file 0o644)])]) none
      = ["root/b", "root/b/c.txt"]
    ∧ "root/b" ∈ walkPaths "root" (.dir [("b", .dir [("c.txt", .file 0o644)])]) none := by
  decide

/-- C2 counterexample: on the tree `root/{b/{x.txt}, d/{y.txt}}` the walk
output is `[root/d, root/d/y.txt, root/b, root/b/x.txt]`: the subdirectories
are visited in descending name order (fs.ts line 103-106 pushes the
ascending-sorted `dirs` onto the stack, so they pop largest first), so the
content of `d` precedes the content of `b`, contradicting the claimed
ascending order between subdirectories. -/
theorem claim_c2_counterexample :
    walkPaths "root" (.dir [("b", .dir [("x.txt", .file 1)]), ("d", .dir [("y.txt", .file 1)])]) none
      = ["root/d", "root/d/y.txt", "root/b", "root/b/x.txt"]
    ∧ (walkPaths "root" (.dir [("b", .dir [("x.txt", .file 1)]), ("d", .dir [("y.txt", .file 1)])]) none).indexOf
          "root/d/y.txt"
        < (walkPaths "root" (.dir [("b", .dir [("x.txt", .file 1)]), ("d", .dir [("y.txt", .file 1)])]) none).indexOf
          "root/b/x.txt" := by
  decide

section WalkLemmas

theorem size_pos (n : FSNode) : 0 < n.size := by
  cases n <;> simp [FSNode.size]

theorem sizeChildren_eq_sum (cs : List (String × FSNode)) :
    FSNode.sizeChildren cs = (cs.map (fun nc => nc.2.size)).sum := by
  induction cs with
  | nil => rfl
  | cons hd tl ih => simp [FSNode.sizeChildren, ih]

theorem size_lt_of_mem_childrenOf {name : String} {c n : FSNode}
    (h : (name, c) ∈ n.childrenOf) : c.size < n.size := by
  cases n with
  | file m => simp [FSNode.childrenOf] at h
  | symlink t => simp [FSNode.childrenOf] at h
  | dir cs =>
    simp only [FSNode.childrenOf] at h
    have hle : c.size ≤ FSNode.sizeChildren cs := by
      induction cs with
      | nil => simp at h
      | cons hd tl ih =>
        rcases List.mem_cons.mp h with h1 | h1
        · subst h1
          simp [FSNode.sizeChildren]
        · have := ih h1
          simp [FSNode.sizeChildren]
          omega
    simp [FSNode.size]
    omega

theorem mem_sortByName {nc : String × FSNode} {l : List (String × FSNode)} :
    nc ∈ sortByName l ↔ nc ∈ l :=
  (List.perm_insertionSort nameLe l).mem_iff

theorem mem_keptSubdirs_mem_children {filter} {dirPath : String} {n : FSNode}
    {nc : String × FSNode} (h : nc ∈ keptSubdirs filter dirPath n) :
    nc ∈ n.childrenOf ∧ keepChild filter dirPath nc = true ∧ nc.2.isDirectory = true := by
  have h1 := mem_sortByName.mp h
  have h2 := List.mem_filter.mp h1
  have h3 := List.mem_filter.mp h2.1
  exact ⟨mem_sortByName.mp h3.1, h3.2, h2.2⟩

theorem flatMap_congr {α β : Type} {l : List α} {f g : α → List β}
    (h : ∀ a ∈ l, f a = g a) : l.flatMap f = l.flatMap g := by
  induction l with
  | nil => rfl
  | cons hd tl ih =>
    simp only [List.flatMap_cons]
    rw [h hd (by simp), ih (fun a ha => h a (List.mem_cons_of_mem hd ha))]

theorem subtreeListF_fuel (filter : Option (String → FSNode → Bool)) :
    ∀ (k : Nat) (n : FSNode) (dirPath : String) (fuel1 fuel2 : Nat),
      n.size ≤ k → n.size ≤ fuel1 → n.size ≤ fuel2 →
      subtreeListF filter fuel1 dirPath n = subtreeListF filter fuel2 dirPath n := by
  intro k
  induction k with
  | zero =>
    intro n dirPath fuel1 fuel2 hk
    have := size_pos n
    omega
  | succ k ih =>
    intro n dirPath fuel1 fuel2 hk h1 h2
    have hs := size_pos n
    obtain ⟨f1, rfl⟩ : ∃ f1, fuel1 = f1 + 1 := ⟨fuel1 - 1, by omega⟩
    obtain ⟨f2, rfl⟩ : ∃ f2, fuel2 = f2 + 1 := ⟨fuel2 - 1, by omega⟩
    simp only [subtreeListF]
    congr 1
    apply flatMap_congr
    intro nc hnc
    have hmem := mem_keptSubdirs_mem_children (List.mem_reverse.mp hnc)
    have hlt : nc.2.size < n.size := size_lt_of_mem_childrenOf
      (show (nc.1, nc.2) ∈ n.childrenOf from hmem.1)
    congr 1
    exact ih nc.2 (dirPath ++ "/" ++ nc.1) f1 f2 (by omega) (by omega) (by omega)

theorem subtreeListF_eq_subtreeList (filter : Option (String → FSNode → Bool))
    (fuel : Nat) (dirPath : String) (n : FSNode) (h : n.size ≤ fuel) :
    subtreeListF filter fuel dirPath n = subtreeList filter dirPath n :=
  subtreeListF_fuel filter n.size n dirPath fuel n.size (le_refl _) h (le_refl _)

end WalkLemmas

section WalkEquivalence

theorem rejected_empty (filter : Option (String → FSNode → Bool))
    (dirPath name : String) (child : FSNode) :
    rejectedAtInspection (⟨filter, none⟩ : WalkCtx Unit) [] (dirPath ++ "/" ++ name) child
      = !(keepChild filter dirPath (name, child)) := by
  cases filter <;> simp [rejectedAtInspection, keepChild]

theorem processChildren_noConsumer (filter : Option (String → FSNode → Bool))
    (dirPath : String) (children : List (String × FSNode)) (names : List String) :
    processChildren ⟨filter, none⟩ () dirPath children names []
      = .ok ((),
          ((children.filter (keepChild filter dirPath)).filter
              (fun nc => !nc.2.isDirectory)).map (fun nc => dirPath ++ "/" ++ nc.1),
          (children.filter (keepChild filter dirPath)).filter (fun nc => nc.2.isDirectory),
          []) := by
  induction children with
  | nil => rfl
  | cons hd tl ih =>
    obtain ⟨name, child⟩ := hd
    by_cases hk : keepChild filter dirPath (name, child) = true
    · by_cases hdir : child.isDirectory = true
      · simp [processChildren, inspectChild, rejected_empty, hk, hdir, ih, List.filter_cons]
      · simp [processChildren, inspectChild, rejected_empty, hk, hdir, ih, List.filter_cons]
    · have hk2 : keepChild filter dirPath (name, child) = false := by
        revert hk
        cases keepChild filter dirPath (name, child) <;> simp
      simp [processChildren, inspectChild, rejected_empty, hk2, ih, List.filter_cons]

theorem processChildren_spec (filter : Option (String → FSNode → Bool))
    (dirPath : String) (n : FSNode) (names : List String) :
    processChildren ⟨filter, none⟩ () dirPath (sortByName n.childrenOf) names []
      = .ok ((), emittedFilePaths filter dirPath n,
          (keptChildren filter dirPath n).filter (fun nc => nc.2.isDirectory), []) := by
  rw [processChildren_noConsumer]
  rfl

theorem queueWeight_append (a b : List (String × FSNode)) :
    queueWeight (a ++ b) = queueWeight a + queueWeight b := by
  simp [queueWeight]

theorem queueWeight_cons (pn : String × FSNode) (rest : List (String × FSNode)) :
    queueWeight (pn :: rest) = pn.2.size + queueWeight rest := by
  simp [queueWeight]

theorem queueWeight_filter_le (p : (String × FSNode) → Bool)
    (l : List (String × FSNode)) : queueWeight (l.filter p) ≤ queueWeight l := by
  induction l with
  | nil => simp
  | cons hd tl ih =>
    rw [List.filter_cons]
    by_cases h : p hd = true <;>
      simp [h, queueWeight_cons] <;> omega

theorem queueWeight_sortByName (l : List (String × FSNode)) :
    queueWeight (sortByName l) = queueWeight l :=
  List.Perm.sum_eq ((List.perm_insertionSort nameLe l).map (fun nc => nc.2.size))

theorem queueWeight_reverse (l : List (String × FSNode)) :
    queueWeight l.reverse = queueWeight l := by
  simp [queueWeight, List.map_reverse, List.sum_reverse]

theorem queueWeight_mapPath (f : (String × FSNode) → String)
    (l : List (String × FSNode)) :
    queueWeight (l.map (fun nc => (f nc, nc.2))) = queueWeight l := by
  simp [queueWeight, List.map_map]
  rfl

theorem queueWeight_childrenOf_lt (n : FSNode) : queueWeight n.childrenOf < n.size := by
  cases n with
  | file m => simp [FSNode.childrenOf, queueWeight, FSNode.size]
  | symlink t => simp [FSNode.childrenOf, queueWeight, FSNode.size]
  | dir cs =>
    simp [FSNode.childrenOf, FSNode.size, sizeChildren_eq_sum, queueWeight]

theorem queueWeight_keptSubdirs_lt (filter : Option (String → FSNode → Bool))
    (dirPath : String) (n : FSNode) :
    queueWeight (keptSubdirs filter dirPath n) < n.size := by
  unfold keptSubdirs keptChildren
  calc queueWeight (sortByName (((sortByName n.childrenOf).filter
          (keepChild filter dirPath)).filter (fun nc => nc.2.isDirectory)))
      = queueWeight (((sortByName n.childrenOf).filter
          (keepChild filter dirPath)).filter (fun nc => nc.2.isDirectory)) :=
        queueWeight_sortByName _
    _ ≤ queueWeight ((sortByName n.childrenOf).filter (keepChild filter dirPath)) :=
        queueWeight_filter_le _ _
    _ ≤ queueWeight (sortByName n.childrenOf) := queueWeight_filter_le _ _
    _ = queueWeight n.childrenOf := queueWeight_sortByName _
    _ < n.size := queueWeight_childrenOf_lt n

theorem flatMap_map_eq {α β γ : Type} (l : List α) (f : α → β) (g : β → List γ) :
    (l.map f).flatMap g = l.flatMap (fun x => g (f x)) := by
  induction l with
  | nil => rfl
  | cons hd tl ih => simp [List.flatMap_cons, ih]

theorem subtreeList_unfold (filter : Option (String → FSNode → Bool))
    (dirPath : String) (n : FSNode) :
    subtreeList filter dirPath n
      = emittedFilePaths filter dirPath n
        ++ (keptSubdirs filter dirPath n).reverse.flatMap
            (fun nc => (dirPath ++ "/" ++ nc.1)
              :: subtreeList filter (dirPath ++ "/" ++ nc.1) nc.2) := by
  have hs := size_pos n
  obtain ⟨m, hm⟩ : ∃ m, n.size = m + 1 := ⟨n.size - 1, by omega⟩
  unfold subtreeList
  rw [hm]
  simp only [subtreeListF]
  congr 1
  apply flatMap_congr
  intro nc hnc
  have hmem := mem_keptSubdirs_mem_children (List.mem_reverse.mp hnc)
  have hlt : nc.2.size < n.size := size_lt_of_mem_childrenOf
    (show (nc.1, nc.2) ∈ n.childrenOf from hmem.1)
  congr 1
  exact subtreeListF_eq_subtreeList filter m _ nc.2 (by omega)

theorem walkLoop_noConsumer (filter : Option (String → FSNode → Bool)) :
    ∀ (fuel : Nat) (q : List (String × FSNode)) (result : List String),
      queueWeight q < fuel →
      walkLoop ⟨filter, none⟩ fuel q true [] () result
        = .ok (result ++ q.flatMap (fun pn => pn.1 :: subtreeList filter pn.1 pn.2), ()) := by
  intro fuel
  induction fuel with
  | zero =>
    intro q result h
    exact absurd h (Nat.not_lt_zero _)
  | succ fuel ih =>
    intro q result h
    cases q with
    | nil => simp [walkLoop]
    | cons hd rest =>
      obtain ⟨dirPath, node⟩ := hd
      have hw : queueWeight ((keptSubdirs filter dirPath node).reverse.map
            (fun nc => (dirPath ++ "/" ++ nc.1, nc.2)) ++ rest) < fuel := by
        have h1 : queueWeight ((keptSubdirs filter dirPath node).reverse.map
              (fun nc => (dirPath ++ "/" ++ nc.1, nc.2)))
            = queueWeight (keptSubdirs filter dirPath node) := by
          rw [queueWeight_mapPath (fun nc => dirPath ++ "/" ++ nc.1), queueWeight_reverse]
        have h2 := queueWeight_keptSubdirs_lt filter dirPath node
        have h3 := queueWeight_cons (dirPath, node) rest
        rw [queueWeight_append, h1]
        rw [h3] at h
        simp only at h h2
        omega
      have hstep : walkLoop ⟨filter, none⟩ (fuel + 1) ((dirPath, node) :: rest) true [] () result
          = walkLoop ⟨filter, none⟩ fuel
              ((keptSubdirs filter dirPath node).reverse.map
                (fun nc => (dirPath ++ "/" ++ nc.1, nc.2)) ++ rest)
              true [] ()
              ((result ++ [dirPath]) ++ emittedFilePaths filter dirPath node) := by
        simp only [walkLoop, processChildren_spec, keptSubdirs]
        simp
      rw [hstep, ih _ _ hw]
      congr 1
      rw [List.flatMap_append, flatMap_map_eq]
      simp only [List.flatMap_cons]
      rw [subtreeList_unfold filter dirPath node]
      simp [List.append_assoc]

theorem walk_noConsumer (initialDirPath : String) (root : FSNode)
    (filter : Option (String → FSNode → Bool)) :
    walk initialDirPath root ⟨filter, none⟩ ()
      = .ok (subtreeList filter initialDirPath root, ()) := by
  unfold walk
  have hs := size_pos root
  obtain ⟨m, hm⟩ : ∃ m, root.size = m + 1 := ⟨root.size - 1, by omega⟩
  rw [hm]
  have hstep : walkLoop ⟨filter, none⟩ (m + 1 + 1) [(initialDirPath, root)] false [] () []
      = walkLoop ⟨filter, none⟩ (m + 1)
          ((keptSubdirs filter initialDirPath root).reverse.map
            (fun nc => (initialDirPath ++ "/" ++ nc.1, nc.2)))
          true [] () (emittedFilePaths filter initialDirPath root) := by
    simp only [walkLoop, processChildren_spec, if_neg, keptSubdirs]
    simp
  have hw : queueWeight ((keptSubdirs filter initialDirPath root).reverse.map
        (fun nc => (initialDirPath ++ "/" ++ nc.1, nc.2))) < m + 1 := by
    have h1 : queueWeight ((keptSubdirs filter initialDirPath root).reverse.map
          (fun nc => (initialDirPath ++ "/" ++ nc.1, nc.2)))
        = queueWeight (keptSubdirs filter initialDirPath root) := by
      rw [queueWeight_mapPath (fun nc => initialDirPath ++ "/" ++ nc.1), queueWeight_reverse]
    have h2 := queueWeight_keptSubdirs_lt filter initialDirPath root
    omega
  rw [hstep, walkLoop_noConsumer filter (m + 1) _ _ hw]
  rw [flatMap_map_eq]
  rw [subtreeList_unfold filter initialDirPath root]

theorem walkPaths_eq_subtreeList (initialDirPath : String) (root : FSNode)
    (filter : Option (String → FSNode → Bool)) :
    walkPaths initialDirPath root filter = subtreeList filter initialDirPath root := by
  unfold walkPaths
  rw [walk_noConsumer]

end WalkEquivalence

section OutputMembership

theorem length_lt_of_mem_subtreeListF (filter : Option (String → FSNode → Bool)) :
    ∀ (fuel : Nat) (dirPath : String) (n : FSNode) (p : String),
      p ∈ subtreeListF filter fuel dirPath n → dirPath.length < p.length := by
  intro fuel
  induction fuel with
  | zero =>
    intro dirPath n p h
    simp [subtreeListF] at h
  | succ fuel ih =>
    intro dirPath n p h
    have hsep : ("/" : String).length = 1 := rfl
    simp only [subtreeListF, List.mem_append] at h
    rcases h with h | h
    · obtain ⟨nc, _, rfl⟩ := List.mem_map.mp h
      simp only [String.length_append, hsep]
      omega
    · obtain ⟨nc, _, hp⟩ := List.mem_flatMap.mp h
      have hchild : dirPath.length < (dirPath ++ "/" ++ nc.1).length := by
        simp only [String.length_append, hsep]
        omega
      rcases List.mem_cons.mp hp with rfl | hp2
      · exact hchild
      · exact lt_trans hchild (ih _ nc.2 p hp2)

theorem root_not_mem_subtreeList (filter : Option (String → FSNode → Bool))
    (initialDirPath : String) (root : FSNode) :
    initialDirPath ∉ subtreeList filter initialDirPath root := by
  intro h
  exact lt_irrefl _ (length_lt_of_mem_subtreeListF filter root.size initialDirPath root _ h)

end OutputMembership

/-- C1 amended: the walk output equals the reference recursion `subtreeList`,
in which every directory the walk descends into contributes its own path
(immediately before its contents) alongside the kept file and symlink paths;
the root directory itself never appears, and both every kept subdirectory
path and every kept non-directory child path of the root are in the output. -/
theorem claim_c1_output_membership (initialDirPath : String) (root : FSNode)
    (filter : Option (String → FSNode → Bool)) :
    walkPaths initialDirPath root filter = subtreeList filter initialDirPath root
    ∧ initialDirPath ∉ walkPaths initialDirPath root filter
    ∧ (∀ p, p ∈ emittedFilePaths filter initialDirPath root →
        p ∈ walkPaths initialDirPath root filter)
    ∧ (∀ nc, nc ∈ keptSubdirs filter initialDirPath root →
        (initialDirPath ++ "/" ++ nc.1) ∈ walkPaths initialDirPath root filter) := by
  have he := walkPaths_eq_subtreeList initialDirPath root filter
  refine ⟨he, ?_, ?_, ?_⟩
  · rw [he]
    exact root_not_mem_subtreeList filter initialDirPath root
  · intro p hp
    rw [he, subtreeList_unfold]
    exact List.mem_append.mpr (Or.inl hp)
  · intro nc hnc
    rw [he, subtreeList_unfold]
    refine List.mem_append.mpr (Or.inr ?_)
    exact List.mem_flatMap.mpr ⟨nc, List.mem_reverse.mpr hnc, List.mem_cons_self _ _⟩

/-- C1 witness: on the tree `root/{b/{c.txt}}` the kept subdirectory `b`
yields the member path `root/b` of the output. -/
theorem claim_c1_output_membership_witness :
    "root/b" ∈ walkPaths "root" (.dir [("b", .dir [("c.txt", .file 0o644)])]) none := by
  have hmem : ("b", FSNode.dir [("c.txt", FSNode.file 0o644)])
      ∈ keptSubdirs none "root" (.dir [("b", .dir [("c.txt", .file 0o644)])]) := by
    show ("b", FSNode.dir [("c.txt", FSNode.file 0o644)])
        ∈ [("b", FSNode.dir [("c.txt", FSNode.file 0o644)])]
    exact List.mem_singleton.mpr rfl
  exact (claim_c1_output_membership "root"
    (.dir [("b", .dir [("c.txt", .file 0o644)])]) none).2.2.2
    ("b", FSNode.dir [("c.txt", FSNode.file 0o644)]) hmem

/-- C2 amended: the walk emits, for each directory, its kept non-directory
children in ascending lexicographic name order before any content of its
subdirectories, and then visits the kept subdirectories in descending (not
ascending) lexicographic order, each one contributing its own path followed
by its complete recursive listing. -/
theorem claim_c2_traversal_order (initialDirPath : String) (root : FSNode)
    (filter : Option (String → FSNode → Bool)) :
    walkPaths initialDirPath root filter
      = emittedFilePaths filter initialDirPath root
        ++ (keptSubdirs filter initialDirPath root).reverse.flatMap
            (fun nc => (initialDirPath ++ "/" ++ nc.1)
              :: walkPaths (initialDirPath ++ "/" ++ nc.1) nc.2 filter)
    ∧ List.Sorted nameLe
        ((keptChildren filter initialDirPath root).filter (fun nc => !nc.2.isDirectory))
    ∧ List.Sorted nameLe (keptSubdirs filter initialDirPath root) := by
  refine ⟨?_, ?_, ?_⟩
  · rw [walkPaths_eq_subtreeList, subtreeList_unfold]
    congr 1
    apply flatMap_congr
    intro nc _
    rw [walkPaths_eq_subtreeList]
  · have h0 : List.Pairwise nameLe (sortByName root.childrenOf) :=
      List.sorted_insertionSort nameLe root.childrenOf
    exact (h0.filter (keepChild filter initialDirPath)).filter (fun nc => !nc.2.isDirectory)
  · exact List.sorted_insertionSort nameLe _

theorem mem_subtreeListF_emittedFrom (filter : Option (String → FSNode → Bool)) :
    ∀ (fuel : Nat) (dirPath : String) (n : FSNode) (p : String),
      p ∈ subtreeListF filter fuel dirPath n → EmittedFrom filter dirPath n p := by
  intro fuel
  induction fuel with
  | zero =>
    intro dirPath n p h
    simp [subtreeListF] at h
  | succ fuel ih =>
    intro dirPath n p h
    simp only [subtreeListF, List.mem_append] at h
    rcases h with h | h
    · obtain ⟨nc, hnc, rfl⟩ := List.mem_map.mp h
      have h1 := List.mem_filter.mp hnc
      have h2 := List.mem_filter.mp h1.1
      have h3 := mem_sortByName.mp h2.1
      refine EmittedFrom.fileKept dirPath n nc.1 nc.2 h3 h2.2 ?_
      revert h1
      cases nc.2.isDirectory <;> simp
    · obtain ⟨nc, hnc, hp⟩ := List.mem_flatMap.mp h
      have hmem := mem_keptSubdirs_mem_children (List.mem_reverse.mp hnc)
      rcases List.mem_cons.mp hp with rfl | hp2
      · exact EmittedFrom.dirKept dirPath n nc.1 nc.2 hmem.1 hmem.2.1 hmem.2.2
      · exact EmittedFrom.descend dirPath n nc.1 nc.2 p hmem.1 hmem.2.1 hmem.2.2
          (ih _ nc.2 p hp2)

/-- C9: a child whose path is in the ignore set at inspection time, or which
the filter rejects, is skipped: the per-child handler emits nothing, pushes
nothing onto the directory stack, leaves the consumer state and the ignore
set untouched (the consumer is not invoked); and for consumer-free walks
every output path provably traces only through kept children, so a skipped
child and its whole subtree contribute no entries to the result. -/
theorem claim_c9_skipped_children :
    (∀ (σ : Type) (ctx : WalkCtx σ) (s : σ) (dirPath name : String) (child : FSNode)
        (ignored : List String) (names : List String),
      rejectedAtInspection ctx ignored (dirPath ++ "/" ++ name) child = true →
      inspectChild ctx s dirPath name child ignored names = .ok (s, none, none, ignored))
    ∧ (∀ (initialDirPath : String) (root : FSNode)
        (filter : Option (String → FSNode → Bool)) (p : String),
      p ∈ walkPaths initialDirPath root filter → EmittedFrom filter initialDirPath root p) := by
  constructor
  · intro σ ctx s dirPath name child ignored names h
    simp [inspectChild, h]
  · intro initialDirPath root filter p hp
    rw [walkPaths_eq_subtreeList] at hp
    exact mem_subtreeListF_emittedFrom filter root.size initialDirPath root p hp

/-- C9 witness: a filter rejecting everything makes the handler skip the
child with no emission, no descent and no state change; and a concrete
emitted path is traced to a kept child. -/
theorem claim_c9_skipped_children_witness :
    inspectChild (⟨some (fun _ _ => false), none⟩ : WalkCtx Unit) () "root" "a"
        (.file 0o644) [] ["a"]
      = .ok ((), none, none, [])
    ∧ EmittedFrom none "root" (.dir [("a.txt", .file 0o644)]) "root/a.txt" := by
  constructor
  · exact claim_c9_skipped_children.1 Unit ⟨some (fun _ _ => false), none⟩ () "root" "a"
      (.file 0o644) [] ["a"] (by decide)
  · exact claim_c9_skipped_children.2 "root" (.dir [("a.txt", .file 0o644)]) none
      "root/a.txt" (by decide)

section WalkStateInvariant

variable {σ : Type}

theorem okQuad_inj {α β γ δ : Type} {a1 a2 : α} {b1 b2 : β} {c1 c2 : γ} {d1 d2 : δ}
    (h : (Except.ok (a1, b1, c1, d1) : Except String (α × β × γ × δ))
      = .ok (a2, b2, c2, d2)) :
    a1 = a2 ∧ b1 = b2 ∧ c1 = c2 ∧ d1 = d2 := by
  have h2 := Except.ok.inj h
  simp only [Prod.mk.injEq] at h2
  exact h2

theorem okPair_inj {α β : Type} {a1 a2 : α} {b1 b2 : β}
    (h : (Except.ok (a1, b1) : Except String (α × β)) = .ok (a2, b2)) :
    a1 = a2 ∧ b1 = b2 := by
  have h2 := Except.ok.inj h
  simp only [Prod.mk.injEq] at h2
  exact h2

theorem inspectChild_preserves (root : FSNode) (ctx : WalkCtx σ) (P : σ → Prop)
    (hP : ∀ c, ctx.consumer = some c →
      ∀ s file (stat : FSNode) parent ignored names s2 ov adds,
        NodeIn root stat → P s →
        c s file stat parent ignored names = .ok (s2, ov, adds) → P s2)
    (s : σ) (dirPath name : String) (child : FSNode) (ignored names : List String)
    (s2 : σ) (emit : Option String) (dirEntry : Option (String × FSNode))
    (ign2 : List String)
    (hchild : NodeIn root child) (hs : P s)
    (h : inspectChild ctx s dirPath name child ignored names
      = .ok (s2, emit, dirEntry, ign2)) :
    P s2 ∧ (∀ d, dirEntry = some d → d = (name, child)) := by
  unfold inspectChild at h
  by_cases hrej : rejectedAtInspection ctx ignored (dirPath ++ "/" ++ name) child = true
  · simp only [hrej, if_pos] at h
    obtain ⟨h1, h2, h3, h4⟩ := okQuad_inj h
    subst h1
    refine ⟨hs, ?_⟩
    intro d hd
    rw [← h3] at hd
    cases hd
  · simp only [hrej, if_neg, Bool.not_eq_true] at h
    cases hcons : ctx.consumer with
    | none =>
      simp only [hcons] at h
      by_cases hdir : child.isDirectory = true
      · simp only [hdir, if_pos] at h
        obtain ⟨h1, h2, h3, h4⟩ := okQuad_inj h
        subst h1
        refine ⟨hs, ?_⟩
        intro d hd
        rw [← h3] at hd
        exact (Option.some.inj hd).symm
      · simp only [hdir, if_neg] at h
        obtain ⟨h1, h2, h3, h4⟩ := okQuad_inj h
        subst h1
        refine ⟨hs, ?_⟩
        intro d hd
        rw [← h3] at hd
        cases hd
    | some c =>
      simp only [hcons] at h
      cases hc : c s (dirPath ++ "/" ++ name) child dirPath ignored names with
      | error e =>
        simp only [hc] at h
        cases h
      | ok triple =>
        obtain ⟨s2', ov, adds⟩ := triple
        simp only [hc] at h
        have hs2 : P s2' := hP c hcons s (dirPath ++ "/" ++ name) child dirPath
          ignored names s2' ov adds hchild hs hc
        by_cases hdir : (ov.getD child).isDirectory = true
        · simp only [hdir, if_pos] at h
          obtain ⟨h1, h2, h3, h4⟩ := okQuad_inj h
          subst h1
          refine ⟨hs2, ?_⟩
          intro d hd
          rw [← h3] at hd
          exact (Option.some.inj hd).symm
        · simp only [hdir, if_neg] at h
          obtain ⟨h1, h2, h3, h4⟩ := okQuad_inj h
          subst h1
          refine ⟨hs2, ?_⟩
          intro d hd
          rw [← h3] at hd
          cases hd

theorem processChildren_preserves (root : FSNode) (ctx : WalkCtx σ) (P : σ → Prop)
    (hP : ∀ c, ctx.consumer = some c →
      ∀ s file (stat : FSNode) parent ignored names s2 ov adds,
        NodeIn root stat → P s →
        c s file stat parent ignored names = .ok (s2, ov, adds) → P s2) :
    ∀ (children : List (String × FSNode)) (dirPath : String) (names ignored : List String)
      (s s3 : σ) (files : List String) (dirs : List (String × FSNode)) (ign3 : List String),
      (∀ nc ∈ children, NodeIn root nc.2) → P s →
      processChildren ctx s dirPath children names ignored = .ok (s3, files, dirs, ign3) →
      P s3 ∧ (∀ d ∈ dirs, NodeIn root d.2) := by
  intro children
  induction children with
  | nil =>
    intro dirPath names ignored s s3 files dirs ign3 hmem hs h
    obtain ⟨h1, h2, h3, h4⟩ := okQuad_inj h
    subst h1
    refine ⟨hs, ?_⟩
    intro d hd
    rw [← h3] at hd
    cases hd
  | cons hd tl ih =>
    intro dirPath names ignored s s3 files dirs ign3 hmem hs h
    obtain ⟨name, child⟩ := hd
    simp only [processChildren] at h
    cases hi : inspectChild ctx s dirPath name child ignored names with
    | error e =>
      simp only [hi] at h
      cases h
    | ok quad =>
      obtain ⟨s2, emit, dirEntry, ign2⟩ := quad
      simp only [hi] at h
      have hfirst := inspectChild_preserves root ctx P hP s dirPath name child ignored
        names s2 emit dirEntry ign2 (hmem (name, child) (List.mem_cons_self _ _)) hs hi
      cases hrest : processChildren ctx s2 dirPath tl names ign2 with
      | error e =>
        simp only [hrest] at h
        cases h
      | ok quad2 =>
        obtain ⟨s3', files', dirs', ign3'⟩ := quad2
        simp only [hrest] at h
        have hrec := ih dirPath names ign2 s2 s3' files' dirs' ign3'
          (fun nc hnc => hmem nc (List.mem_cons_of_mem _ hnc)) hfirst.1 hrest
        obtain ⟨h1, h2, h3, h4⟩ := okQuad_inj h
        subst h1
        refine ⟨hrec.1, ?_⟩
        intro d hd
        rw [← h3] at hd
        cases hde : dirEntry with
        | some d0 =>
          rw [hde] at hd
          rcases List.mem_cons.mp hd with rfl | hd2
          · have hd0 := hfirst.2 d hde
            subst hd0
            exact hmem (name, child) (List.mem_cons_self _ _)
          · exact hrec.2 d hd2
        | none =>
          rw [hde] at hd
          exact hrec.2 d hd

theorem walkLoop_preserves (root : FSNode) (ctx : WalkCtx σ) (P : σ → Prop)
    (hP : ∀ c, ctx.consumer = some c →
      ∀ s file (stat : FSNode) parent ignored names s2 ov adds,
        NodeIn root stat → P s →
        c s file stat parent ignored names = .ok (s2, ov, adds) → P s2) :
    ∀ (fuel : Nat) (q : List (String × FSNode)) (addDir : Bool)
      (ignored : List String) (s : σ) (result res : List String) (sFinal : σ),
      (∀ pn ∈ q, NodeIn root pn.2) → P s →
      walkLoop ctx fuel q addDir ignored s result = .ok (res, sFinal) → P sFinal := by
  intro fuel
  induction fuel with
  | zero =>
    intro q addDir ignored s result res sFinal hq hs h
    obtain ⟨h1, h2⟩ := okPair_inj h
    exact h2 ▸ hs
  | succ fuel ih =>
    intro q addDir ignored s result res sFinal hq hs h
    cases q with
    | nil =>
      obtain ⟨h1, h2⟩ := okPair_inj h
      exact h2 ▸ hs
    | cons hd rest =>
      obtain ⟨dirPath, node⟩ := hd
      simp only [walkLoop] at h
      cases hp : processChildren ctx s dirPath (sortByName node.childrenOf)
          ((sortByName node.childrenOf).map (fun nc => nc.1)) ignored with
      | error e =>
        simp only [hp] at h
        cases h
      | ok quad =>
        obtain ⟨s2, files, dirs, ign2⟩ := quad
        simp only [hp] at h
        have hnode : NodeIn root node := hq (dirPath, node) (List.mem_cons_self _ _)
        have hchildren : ∀ nc ∈ sortByName node.childrenOf, NodeIn root nc.2 := by
          intro nc hnc
          exact NodeIn.step nc.1 hnode (mem_sortByName.mp hnc)
        have hpc := processChildren_preserves root ctx P hP (sortByName node.childrenOf)
          dirPath ((sortByName node.childrenOf).map (fun nc => nc.1)) ignored s s2 files
          dirs ign2 hchildren hs hp
        refine ih _ true ign2 s2 _ res sFinal ?_ hpc.1 h
        intro pn hpn
        rcases List.mem_append.mp hpn with hpn1 | hpn2
        · obtain ⟨nc, hnc, rfl⟩ := List.mem_map.mp hpn1
          exact hpc.2 nc (mem_sortByName.mp (List.mem_reverse.mp hnc))
        · exact hq pn (List.mem_cons_of_mem _ hpn2)

theorem walk_preserves (root : FSNode) (initialDirPath : String) (ctx : WalkCtx σ)
    (P : σ → Prop)
    (hP : ∀ c, ctx.consumer = some c →
      ∀ s file (stat : FSNode) parent ignored names s2 ov adds,
        NodeIn root stat → P s →
        c s file stat parent ignored names = .ok (s2, ov, adds) → P s2)
    (s : σ) (res : List String) (sFinal : σ) (hs : P s)
    (h : walk initialDirPath root ctx s = .ok (res, sFinal)) : P sFinal := by
  unfold walk at h
  refine walkLoop_preserves root ctx P hP (root.size + 1) [(initialDirPath, root)] false
    [] s [] res sFinal ?_ hs h
  intro pn hpn
  rcases List.mem_cons.mp hpn with rfl | hx
  · exact NodeIn.refl root
  · cases hx

end WalkStateInvariant

section CopyDirLemmas

theorem copyOrLinkFile_effect (env : Env) (src dest : String) (stats : Option FSNode)
    (flag : Bool) (eff : FsEffect)
    (h : copyOrLinkFile env src dest stats flag = .ok eff) :
    eff.isSymlinkEff = false := by
  simp only [copyOrLinkFile] at h
  split at h
  · cases hle : env.linkErr src dest with
    | none =>
      simp only [hle] at h
      rw [← Except.ok.inj h]
      rfl
    | some e =>
      simp only [hle] at h
      cases h
  · cases hce : env.copyErr src dest with
    | none =>
      simp only [hce] at h
      rw [← Except.ok.inj h]
      rfl
    | some e =>
      simp only [hce] at h
      cases h

theorem fcTryBody_effect (env : Env) (fc : FileCopier) (src dest : String)
    (stat : Option FSNode) (eff : FsEffect)
    (h : fcTryBody env fc src dest stat = .ok eff) :
    eff.isSymlinkEff = false := by
  simp only [fcTryBody] at h
  cases htr : fc.transformer with
  | none =>
    simp only [htr] at h
    exact copyOrLinkFile_effect env src dest stat _ eff h
  | some t =>
    cases stat with
    | none =>
      simp only [htr] at h
      exact copyOrLinkFile_effect env src dest none _ eff h
    | some s =>
      simp only [htr] at h
      by_cases hf : s.isFile = true
      · simp only [hf, if_pos] at h
        cases hts : t src with
        | none =>
          simp only [hts] at h
          exact copyOrLinkFile_effect env src dest (some s) _ eff h
        | some data =>
          simp only [hts] at h
          cases hwr : env.writeErr dest data with
          | none =>
            simp only [hwr] at h
            rw [← Except.ok.inj h]
            rfl
          | some e =>
            simp only [hwr] at h
            cases h
      · simp only [hf, if_neg] at h
        exact copyOrLinkFile_effect env src dest (some s) _ eff h

theorem FileCopier_copy_effect (env : Env) (fc : FileCopier) (src dest : String)
    (stat : Option FSNode) (eff : FsEffect) (fc2 : FileCopier)
    (h : FileCopier.copy env fc src dest stat = .ok (eff, fc2)) :
    eff.isSymlinkEff = false := by
  simp only [FileCopier.copy] at h
  cases hb : fcTryBody env fc src dest stat with
  | ok eff2 =>
    simp only [hb] at h
    obtain ⟨h1, h2⟩ := okPair_inj h
    exact h1 ▸ fcTryBody_effect env fc src dest stat eff2 hb
  | error e =>
    simp only [hb] at h
    by_cases he : e = "EXDEV"
    · simp only [he, if_pos] at h
      cases hc : copyOrLinkFile env src dest stat false with
      | ok eff3 =>
        simp only [hc] at h
        obtain ⟨h1, h2⟩ := okPair_inj h
        exact h1 ▸ copyOrLinkFile_effect env src dest stat false eff3 hc
      | error e2 =>
        simp only [hc] at h
        cases h
    · simp only [he, if_neg] at h
      cases h

theorem okTriple_inj {α β γ : Type} {a1 a2 : α} {b1 b2 : β} {c1 c2 : γ}
    (h : (Except.ok (a1, b1, c1) : Except String (α × β × γ)) = .ok (a2, b2, c2)) :
    a1 = a2 ∧ b1 = b2 ∧ c1 = c2 := by
  have h2 := Except.ok.inj h
  simp only [Prod.mk.injEq] at h2
  exact h2

theorem copyDirConsumer_preserves (env : Env) (src destination : String) (tree : FSNode)
    (st : CopyDirState) (file : String) (stat : FSNode) (parent : String)
    (ignored names : List String) (st2 : CopyDirState) (ov : Option FSNode)
    (adds : List String)
    (hstat : NodeIn tree stat) (hst : CopyDirInv tree st)
    (h : copyDirConsumer env src destination st file stat parent ignored names
      = .ok (st2, ov, adds)) :
    CopyDirInv tree st2 := by
  simp only [copyDirConsumer] at h
  by_cases hskip : (!stat.isFile && !stat.isSymbolicLink) = true
  · rw [if_pos hskip] at h
    obtain ⟨h1, h2, h3⟩ := okTriple_inj h
    exact h1 ▸ hst
  · rw [if_neg hskip] at h
    have hst1 : CopyDirInv tree (if st.createdSourceDirs.contains parent = true then st
        else { st with
          createdSourceDirs := st.createdSourceDirs ++ [parent],
          effects := st.effects
            ++ [.ensureDir (strReplaceFirst parent src destination)] }) := by
      by_cases hcd : st.createdSourceDirs.contains parent = true
      · rw [if_pos hcd]
        exact hst
      · rw [if_neg hcd]
        refine ⟨?_, hst.2⟩
        intro e he
        rcases List.mem_append.mp he with he1 | he2
        · exact hst.1 e he1
        · rw [List.mem_singleton.mp he2]
          rfl
    set st1 := (if st.createdSourceDirs.contains parent = true then st
      else { st with
        createdSourceDirs := st.createdSourceDirs ++ [parent],
        effects := st.effects
          ++ [.ensureDir (strReplaceFirst parent src destination)] }) with hst1def
    by_cases hf : stat.isFile = true
    · rw [if_pos hf] at h
      cases hcp : FileCopier.copy env st1.fileCopier file
          (strReplaceFirst file src destination) (some stat) with
      | error e =>
        simp only [hcp] at h
        cases h
      | ok pair =>
        obtain ⟨eff, fc2⟩ := pair
        simp only [hcp] at h
        obtain ⟨h1, h2, h3⟩ := okTriple_inj h
        refine h1 ▸ ⟨?_, hst1.2⟩
        intro e he
        rcases List.mem_append.mp he with he1 | he2
        · exact hst1.1 e he1
        · rw [List.mem_singleton.mp he2]
          exact FileCopier_copy_effect env st1.fileCopier file
            (strReplaceFirst file src destination) (some stat) eff fc2 hcp
    · rw [if_neg hf] at h
      obtain ⟨h1, h2, h3⟩ := okTriple_inj h
      have hfile_false : stat.isFile = false := by
        revert hf
        cases stat.isFile <;> simp
      have hsym : stat.isSymbolicLink = true := by
        cases hsy : stat.isSymbolicLink
        · exfalso
          apply hskip
          rw [hfile_false, hsy]
          rfl
        · rfl
      refine h1 ▸ ⟨hst1.1, ?_⟩
      intro l hl
      rcases List.mem_append.mp hl with hl1 | hl2
      · exact hst1.2 l hl1
      · rw [List.mem_singleton.mp hl2]
        exact ⟨stat, hstat, hsym, rfl⟩

end CopyDirLemmas

/-- C5: for every successful copyDir run, the effect trace splits into the
walk phase followed by the symlink phase: no symlink is created during the
walk (so every regular-file copy, transformer write and directory creation
precedes every symlink creation), the deferred records are materialised only
after the walk completes, and every created symlink's target text is the
literal (unresolved) readlink of a symlink node of the source tree. -/
theorem claim_c5_deferred_symlinks (env : Env) (src destination : String)
    (tree : FSNode) (filter : Option (String → FSNode → Bool))
    (transformer : Option (String → Option String))
    (isUseHardLinkF : Option (String → Bool))
    (hardLinkDefault funcIsDoNotUseHardLinks : Bool) (trace : List FsEffect)
    (h : copyDir env src destination tree filter transformer isUseHardLinkF
      hardLinkDefault funcIsDoNotUseHardLinks = .ok trace) :
    ∃ (effs : List FsEffect) (links : List Link),
      trace = effs ++ links.map (fun l => FsEffect.symlinkEff l.link l.file)
      ∧ (∀ e ∈ effs, e.isSymlinkEff = false)
      ∧ (∀ l ∈ links, ∃ n : FSNode,
          NodeIn tree n ∧ n.isSymbolicLink = true ∧ l.link = n.readlink) := by
  simp only [copyDir] at h
  cases hw : walk src tree ⟨filter, some (copyDirConsumer env src destination)⟩
      ⟨FileCopier.make hardLinkDefault funcIsDoNotUseHardLinks isUseHardLinkF transformer,
        [], [], []⟩ with
  | error e =>
    rw [hw] at h
    cases h
  | ok pair =>
    obtain ⟨res, st⟩ := pair
    rw [hw] at h
    have hinv : CopyDirInv tree st := by
      refine walk_preserves tree src _ (CopyDirInv tree) ?_ _ res st ?_ hw
      · intro c hc s file stat parent ignored names s2 ov adds hn hs hcall
        have hceq : c = copyDirConsumer env src destination := (Option.some.inj hc).symm
        subst hceq
        exact copyDirConsumer_preserves env src destination tree s file stat parent
          ignored names s2 ov adds hn hs hcall
      · exact ⟨fun e he => absurd he (List.not_mem_nil e),
          fun l hl => absurd hl (List.not_mem_nil l)⟩
    exact ⟨st.effects, st.links, (Except.ok.inj h).symm, hinv.1, hinv.2⟩

/-- C5 witness: mirroring `src/{a.txt, lnk -> a.txt}` into `dest` produces
the parent creation and the file copy strictly before the single symlink
creation, whose target is the literal text `a.txt`. -/
theorem claim_c5_deferred_symlinks_witness :
    ∃ (effs : List FsEffect) (links : List Link),
      [FsEffect.ensureDir "dest", FsEffect.copy "src/a.txt" "dest/a.txt" (some 0o644),
        FsEffect.symlinkEff "a.txt" "dest/lnk"]
        = effs ++ links.map (fun l => FsEffect.symlinkEff l.link l.file)
      ∧ (∀ e ∈ effs, e.isSymlinkEff = false)
      ∧ (∀ l ∈ links, ∃ n : FSNode,
          NodeIn (FSNode.dir [("a.txt", .file 0o644), ("lnk", .symlink "a.txt")]) n
            ∧ n.isSymbolicLink = true ∧ l.link = n.readlink) :=
  claim_c5_deferred_symlinks
    ⟨fun _ _ => none, fun _ _ => none, fun _ _ => none⟩ "src" "dest"
    (FSNode.dir [("a.txt", .file 0o644), ("lnk", .symlink "a.txt")])
    none none none false false
    [FsEffect.ensureDir "dest", FsEffect.copy "src/a.txt" "dest/a.txt" (some 0o644),
      FsEffect.symlinkEff "a.txt" "dest/lnk"]
    (by rfl)
